import Mathlib

/-!
Verification development for the `spacehogs` directory-size analyzer
(`spacehogs.go`).

Modelling conventions:
* Go strings are modelled as `List Char` (abbreviated `Str`); UTF-8 byte
  order and Unicode code-point order agree, so Go's byte-wise string
  comparison is code-point lexicographic comparison on the char list.
* Machine integers (`uint64`, `int64` file sizes) are modelled as `Nat`;
  the program only adds non-negative file sizes, far below 2^64, so
  wrap-around is not modelled.  Where a claim is about the 64-bit range
  (`humanReadableSize`), the bound `size < 2^64` appears as a hypothesis.
* `strconv.ParseFloat` followed by multiplication and truncation to
  `uint64` is modelled with exact decimal arithmetic: the parsed decimal
  is kept as a fraction `numerator / 10^fracDigits` and the final value
  is computed with truncating `Nat` division.  (Rounding of `float64`
  itself is not modelled; on the decimal grammar accepted here the
  truncated results agree for all inputs of practical precision.)
* `strings.TrimSpace` and the regexp class `\s` are modelled with
  `Char.isWhitespace` and an explicit ASCII space class.
* The filesystem is modelled as a value of the inductive type `FSNode`;
  the `statOk` / `readOk` flags model whether `entry.Info()` /
  `os.ReadDir` succeed at that node.  Diagnostics written to stderr are
  collected in an `errs` list.
* The concurrent traversal (one goroutine per subdirectory, a mutex
  around the shared `results` slice) appends entries in a
  nondeterministic order; the model fixes the sequential left-to-right
  interleaving and order-sensitive statements are made up to
  permutation.
-/

/-- Go strings, modelled as lists of characters. -/
abbrev Str := List Char

deriving instance DecidableEq for Except

/-- FileInfo record from `spacehogs.go`: one file or directory entry. -/
structure FileInfo where
  path : Str
  size : Nat
  isDir : Bool
deriving DecidableEq, Repr

/-- Filesystem tree node; `statOk` models whether `entry.Info()` succeeds
on a file, `readOk` whether `os.ReadDir` succeeds on a directory. -/
inductive FSNode where
  | file (name : Str) (size : Nat) (statOk : Bool)
  | dir (name : Str) (entries : List FSNode) (readOk : Bool)

/-- Name of a node, as returned by `entry.Name()`. -/
def FSNode.name : FSNode → Str
  | .file n _ _ => n
  | .dir n _ _ => n

/-- Characters trimmed by `strings.TrimSpace` (ASCII approximation). -/
def trimChars (cs : Str) : Str :=
  ((cs.dropWhile Char.isWhitespace).reverse.dropWhile Char.isWhitespace).reverse

/-- Characters matched by the regexp class `\s`. -/
def isGoSpace (c : Char) : Bool :=
  c = ' ' || c = '\t' || c = '\n' || c = '\x0c' || c = '\r'

/-- Characters matched by the regexp class `[kmgtp]` case-insensitively. -/
def isUnitChar (c : Char) : Bool :=
  let l := c.toLower
  l = 'k' || l = 'm' || l = 'g' || l = 't' || l = 'p'

/-- Match of the regexp fragment `([kmgtp]?b?)$` (case-insensitive) against
the remaining characters of the input. -/
def unitOk : Str → Bool
  | [] => true
  | [c] => isUnitChar c || c.toLower = 'b'
  | [c1, c2] => isUnitChar c1 && c2.toLower = 'b'
  | _ => false

/-- Value of a digit string read in base 10. -/
def digitsToNat (cs : Str) : Nat :=
  cs.foldl (fun a c => a * 10 + (c.toNat - 48)) 0

/-- Model of `strconv.ParseFloat` restricted to the character class
`[\d.]+` fed to it by `parseSize`: accepts at most one dot and at least
one digit, and returns the exact value as a fraction
`(numerator, 10 ^ fracDigits)`. -/
def parseDecimal (cs : Str) : Option (Nat × Nat) :=
  if !(cs.all fun c => c.isDigit || c = '.') then none
  else if cs.count '.' > 1 then none
  else
    let intPart := cs.takeWhile (· ≠ '.')
    let fracPart := (cs.dropWhile (· ≠ '.')).drop 1
    if intPart.isEmpty && fracPart.isEmpty then none
    else some (digitsToNat (intPart ++ fracPart), 10 ^ fracPart.length)

/-- Multiplier applied by the `switch` in `parseSize` to the upper-cased
unit string: cases exist for T, G, M and K only; any other unit
(including `P` and a bare `B`) falls through with multiplier 1. -/
def unitMult : Str → Nat
  | 'T' :: _ => 1024 ^ 4
  | 'G' :: _ => 1024 ^ 3
  | 'M' :: _ => 1024 ^ 2
  | 'K' :: _ => 1024
  | _ => 1

/-- Model of `parseSize` from `spacehogs.go`: trims the input, matches the
regexp `(?i)^([\d\.]+)\s*([kmgtp]?b?)$`, parses the numeric part, applies
the unit multiplier from the `switch`, and truncates toward zero. -/
def parseSize (sizeStr : Str) : Except Str Nat :=
  let cs := trimChars sizeStr
  let numChars := cs.takeWhile (fun c => c.isDigit || c = '.')
  let rest := (cs.drop numChars.length).dropWhile isGoSpace
  if numChars.isEmpty || !(unitOk rest) then
    Except.error ("invalid size format: ".toList ++ sizeStr)
  else
    match parseDecimal numChars with
    | none => Except.error ("invalid size number: ".toList ++ numChars)
    | some (num, den) =>
      Except.ok ((num * unitMult (rest.map Char.toUpper)) / den)

/-- Spec-side grammar of a valid size string, following the spec's words:
after trimming, a non-negative decimal number (at least one digit, at
most one decimal point), optional spaces, then an optional unit accepted
by the unit grammar. -/
def isValidSizeStr (s : Str) : Bool :=
  let cs := trimChars s
  let numChars := cs.takeWhile (fun c => c.isDigit || c = '.')
  let rest := (cs.drop numChars.length).dropWhile isGoSpace
  numChars.any Char.isDigit && numChars.count '.' ≤ 1 && unitOk rest

/-- Unit-selection loop of `humanReadableSize`: repeatedly divides by 1024
while the quotient is still at least 1024, counting the exponent. -/
def hrExpAux (n : Nat) (exp : Nat) : Nat :=
  if n ≥ 1024 then hrExpAux (n / 1024) (exp + 1) else exp
termination_by n
decreasing_by
  exact Nat.div_lt_self (by omega) (by omega)

/-- Exponent computed by `humanReadableSize` for an input of at least
1024 bytes: the loop starts from `size / 1024` with exponent 0. -/
def hrExp (size : Nat) : Nat := hrExpAux (size / 1024) 0

/-- Unit characters indexed by the exponent in `humanReadableSize`. -/
def hrUnits : Str := "KMGTPE".toList

/-- Split on a separator character, as `strings.Split` does. -/
def splitSep (sep : Char) : Str → List Str
  | [] => [[]]
  | c :: rest =>
    match splitSep sep rest with
    | [] => [[]]
    | s :: ss => if c = sep then [] :: s :: ss else (c :: s) :: ss

/-- Join path components with slashes. -/
def joinSlash : List Str → Str
  | [] => []
  | [s] => s
  | s :: rest => s ++ '/' :: joinSlash rest

/-- Model of Go's `path/filepath.Clean` (lexical cleaning: collapse
slashes, drop `.` elements, resolve `..` elements, drop the trailing
slash; the empty path cleans to `.`). -/
def filepathClean (path : Str) : Str :=
  if path = [] then ".".toList else
  let rooted := path.head? = some '/'
  let comps := (splitSep '/' path).filter (fun c => c ≠ [] && c ≠ ".".toList)
  let resolved := (comps.foldl (fun acc c =>
      if c = "..".toList then
        match acc with
        | [] => if rooted then [] else [c]
        | p :: rest => if p = "..".toList then c :: p :: rest else rest
      else c :: acc) []).reverse
  let joined := joinSlash resolved
  if rooted then '/' :: joined
  else if joined = [] then ".".toList else joined

/-- Model of Go's `path/filepath.Base`: last element of the path after
stripping trailing slashes. -/
def filepathBase (path : Str) : Str :=
  if path = [] then ".".toList else
  let p := (path.reverse.dropWhile (· = '/')).reverse
  if p = [] then "/".toList
  else (p.reverse.takeWhile (· ≠ '/')).reverse

/-- Model of `filepath.Join(path, name)` as used in the walk: the two
components joined with a slash, then cleaned. -/
def filepathJoin (p n : Str) : Str := filepathClean (p ++ '/' :: n)

/-- Outcome of one `walkDirRecursive` call: the returned total plus the
entries appended to the shared `results` slice and the diagnostics
written to stderr while this call ran. -/
structure WalkResult where
  total : Nat
  results : List FileInfo
  errs : List Str
deriving DecidableEq, Repr

/-- Diagnostic emitted when `os.ReadDir` fails. -/
def readDirErr (path : Str) : Str := "Error reading directory ".toList ++ path

/-- Diagnostic emitted when `entry.Info()` fails. -/
def statErr (path : Str) : Str := "Error getting info for ".toList ++ path

mutual
/-- Model of `walkDirRecursive` from `spacehogs.go`.  On a directory whose
listing fails (and on a non-directory, where `os.ReadDir` also fails) it
reports a diagnostic and returns total 0 with no entries; otherwise it
processes the listed entries. -/
def walkDirRecursive (path : Str) (threshold : Nat) (excludeSet : List Str) :
    FSNode → WalkResult
  | .file _ _ _ => ⟨0, [], [readDirErr path]⟩
  | .dir _ entries readOk =>
    if readOk then walkEntries path threshold excludeSet entries
    else ⟨0, [], [readDirErr path]⟩

/-- Body of the loop over a directory's entries in `walkDirRecursive`:
excluded names are skipped entirely; a file's size is added to the
running total and recorded when it meets the threshold (a failed stat
skips the file with a diagnostic); a subdirectory is aggregated
recursively, recorded when its total meets the threshold, and its total
is added to the running total.  The concurrent goroutines' appends are
sequentialized left to right. -/
def walkEntries (path : Str) (threshold : Nat) (excludeSet : List Str) :
    List FSNode → WalkResult
  | [] => ⟨0, [], []⟩
  | e :: rest =>
    let tail := walkEntries path threshold excludeSet rest
    if e.name ∈ excludeSet then tail
    else
      match e with
      | .file n fsize statOk =>
        if statOk then
          { total := fsize + tail.total,
            results := (if fsize ≥ threshold then
                [⟨filepathJoin path n, fsize, false⟩] else []) ++ tail.results,
            errs := tail.errs }
        else
          { tail with errs := statErr (filepathJoin path n) :: tail.errs }
      | .dir dn des dok =>
        let sub := walkDirRecursive (filepathJoin path dn) threshold excludeSet
          (.dir dn des dok)
        { total := sub.total + tail.total,
          results := sub.results ++
            (if sub.total ≥ threshold then
              [⟨filepathJoin path dn, sub.total, true⟩] else []) ++ tail.results,
          errs := sub.errs ++ tail.errs }
end

/-- Go string comparison (`<` on strings): byte-wise lexicographic order,
which on UTF-8 agrees with code-point lexicographic order. -/
def charsLt : Str → Str → Bool
  | [], [] => false
  | [], _ :: _ => true
  | _ :: _, [] => false
  | a :: as, b :: bs => decide (a < b) || (decide (a = b) && charsLt as bs)

/-- Comparator passed to `sort.Slice` in `run`: directories sort before
files, then larger sizes first, then lexicographically smaller paths
first. -/
def fiLess (a b : FileInfo) : Bool :=
  if a.isDir != b.isDir then a.isDir
  else if a.size != b.size then decide (b.size < a.size)
  else charsLt a.path b.path

/-- Non-strict form of the sort comparator: `a` may come before `b`. -/
def sortLE (a b : FileInfo) : Prop := fiLess b a = false

instance : DecidableRel sortLE := fun _ _ => inferInstanceAs (Decidable (_ = false))

/-- Model of the `sort.Slice` call in `run`.  The comparator is a strict
total order whose ties are full record equality, so the sorted sequence
is determined by the input multiset; insertion sort realizes it. -/
def sortResults (l : List FileInfo) : List FileInfo := List.insertionSort sortLE l

/-- Model of the construction of the exclusion set in `run`: split the
flag value on commas, trim each name, keep the non-empty ones (the empty
flag value yields the empty set). -/
def buildExcludeSet (excludeDirs : Str) : List Str :=
  if excludeDirs = [] then []
  else ((splitSep ',' excludeDirs).map trimChars).filter (· ≠ [])

/-- Possible outcomes of `run`: the error constructors model the non-nil
error returns (which make `main` exit non-zero), `excludedTop` models the
early nil return with the informational line, and `success` carries the
sorted displayed listing and the total returned by the traversal. -/
inductive RunOutcome where
  | errArity : RunOutcome
  | excludedTop : Str → RunOutcome
  | errSize : Str → RunOutcome
  | errStat : Str → RunOutcome
  | errNotDir : Str → RunOutcome
  | success : List FileInfo → Nat → RunOutcome
deriving DecidableEq, Repr

/-- Whether the outcome is a non-nil error (non-zero process exit). -/
def RunOutcome.isError : RunOutcome → Bool
  | .errArity => true
  | .errSize _ => true
  | .errStat _ => true
  | .errNotDir _ => true
  | .excludedTop _ => false
  | .success _ _ => false

/-- Listing displayed by a successful run. -/
def RunOutcome.displayed : RunOutcome → List FileInfo
  | .success d _ => d
  | _ => []

/-- Model of `run` from `spacehogs.go`, after flag parsing: `excludeDirs`
is the value of `-exclude`, `args` the positional arguments, `lookup` the
filesystem (what `os.Stat` / the walk find at the scan path), and
`results0` the current contents of the global `results` slice, which
`run` never resets.  Checks happen in source order: arity, top-level
exclusion, size parsing, stat, directory check, traversal, root
threshold check, in-place sort of the global slice. -/
def run (excludeDirs : Str) (args : List Str) (lookup : Str → Option FSNode)
    (results0 : List FileInfo) : RunOutcome × List FileInfo :=
  match args with
  | [dirArg, sizeArg] =>
    let excludeSet := buildExcludeSet excludeDirs
    let scanPath := filepathClean dirArg
    if filepathBase scanPath ∈ excludeSet then (.excludedTop scanPath, results0)
    else
      match parseSize sizeArg with
      | .error e => (.errSize e, results0)
      | .ok threshold =>
        match lookup scanPath with
        | none => (.errStat scanPath, results0)
        | some (.file _ _ _) => (.errNotDir scanPath, results0)
        | some (.dir n es ok) =>
          let w := walkDirRecursive scanPath threshold excludeSet (.dir n es ok)
          let st1 := results0 ++ w.results
          let st2 := if w.total ≥ threshold then
              st1 ++ [⟨scanPath, w.total, true⟩] else st1
          let sorted := sortResults st2
          (.success sorted w.total, sorted)
  | _ => (.errArity, results0)

mutual
/-- Spec-side predicate: every node of the tree can be read — all
directories list successfully and all files stat successfully. -/
def intact : FSNode → Bool
  | .file _ _ ok => ok
  | .dir _ es ok => ok && intactList es

/-- Spec-side predicate `intact` on a list of sibling nodes. -/
def intactList : List FSNode → Bool
  | [] => true
  | e :: rest => intact e && intactList rest
end

mutual
/-- Spec-side recursive size of a node, following the spec: a file
contributes its own size, a directory the sum of the sizes of its direct
children that are not in the exclusion set, recursively. -/
def specSize (excl : List Str) : FSNode → Nat
  | .file _ s _ => s
  | .dir _ es _ => specSizeList excl es

/-- Spec-side sum of the sizes of the non-excluded nodes of a list. -/
def specSizeList (excl : List Str) : List FSNode → Nat
  | [] => 0
  | e :: rest =>
    (if e.name ∈ excl then 0 else specSize excl e) + specSizeList excl rest
end

mutual
/-- Spec-side qualifying entries of a tree, following the spec: for every
non-excluded descendant of the walked root, an entry with its spec-side
recursive size appears exactly when that size meets the threshold. -/
def specEntries (p : Str) (t : Nat) (excl : List Str) : FSNode → List FileInfo
  | .file _ _ _ => []
  | .dir _ es _ => specEntriesList p t excl es

/-- Spec-side qualifying entries contributed by a list of children of the
directory at path `p`. -/
def specEntriesList (p : Str) (t : Nat) (excl : List Str) :
    List FSNode → List FileInfo
  | [] => []
  | e :: rest =>
    (if e.name ∈ excl then []
     else
       match e with
       | .file fn s _ =>
         if s ≥ t then [⟨filepathJoin p fn, s, false⟩] else []
       | .dir dn des dok =>
         specEntries (filepathJoin p dn) t excl (.dir dn des dok) ++
           (if specSizeList excl des ≥ t then
             [⟨filepathJoin p dn, specSizeList excl des, true⟩] else []))
    ++ specEntriesList p t excl rest
end

mutual
/-- Claim-side pruning: removes, at every depth, every child whose bare
name is in the exclusion set, together with its whole subtree. -/
def pruneExcluded (excl : List Str) : FSNode → FSNode
  | .file n s ok => .file n s ok
  | .dir n es ok => .dir n (pruneList excl es) ok

/-- Claim-side pruning of a list of sibling nodes. -/
def pruneList (excl : List Str) : List FSNode → List FSNode
  | [] => []
  | e :: rest =>
    if e.name ∈ excl then pruneList excl rest
    else pruneExcluded excl e :: pruneList excl rest
end

/-- Claim-side contribution of one child to its parent directory's total:
a file child contributes its own size, a subdirectory child its
recursively computed total. -/
def childContribution (p : Str) (t : Nat) (excl : List Str) : FSNode → Nat
  | .file _ s _ => s
  | .dir dn des dok =>
    (walkDirRecursive (filepathJoin p dn) t excl (.dir dn des dok)).total

/-- Spec-side check that each entry of a list is a file with a working
stat (used to state the children-sum claim, where a file child is said to
contribute its own size). -/
def filesOk : List FSNode → Bool
  | [] => true
  | e :: rest =>
    (match e with
     | .file _ _ ok => ok
     | .dir _ _ _ => true) && filesOk rest

/-- Per-entry contribution to the running total in `walkEntries`: zero
for excluded or stat-failed entries, the file size or the recursive
subdirectory total otherwise. -/
def entryTotal (p : Str) (t : Nat) (excl : List Str) (e : FSNode) : Nat :=
  if e.name ∈ excl then 0
  else
    match e with
    | .file _ s ok => if ok then s else 0
    | .dir dn des dok =>
      (walkDirRecursive (filepathJoin p dn) t excl (.dir dn des dok)).total

/-! Theorems. -/

theorem hrExpAux_le (k : Nat) : ∀ n e : Nat, n < 1024 ^ (k + 1) → hrExpAux n e ≤ e + k := by
  induction k with
  | zero =>
    intro n e h
    rw [pow_one] at h
    rw [hrExpAux, if_neg (by omega)]
    omega
  | succ k ih =>
    intro n e h
    rw [hrExpAux]
    by_cases hn : n ≥ 1024
    · rw [if_pos hn]
      have hd : n / 1024 < 1024 ^ (k + 1) := by
        apply (Nat.div_lt_iff_lt_mul (by norm_num)).2
        calc n < 1024 ^ (k + 1 + 1) := h
          _ = 1024 ^ (k + 1) * 1024 := by rw [pow_succ]
      have := ih (n / 1024) (e + 1) hd
      omega
    · rw [if_neg hn]
      omega

/-- C10: for every input in the `uint64` range, the exponent computed by
the unit-selection loop of `humanReadableSize` is at most 5, so the
index into the unit string "KMGTPE" is always in bounds (the function is
a total Lean definition). -/
theorem hrExp_within_units (size : Nat) (h : size < 2 ^ 64) :
    hrExp size ≤ 5 ∧ hrExp size < hrUnits.length := by
  have hd : size / 1024 < 1024 ^ 6 := by
    apply (Nat.div_lt_iff_lt_mul (by norm_num)).2
    have : (2 : Nat) ^ 64 < 1024 ^ 6 * 1024 := by norm_num
    omega
  have h5 : hrExp size ≤ 5 := by
    have := hrExpAux_le 5 (size / 1024) 0 hd
    simpa [hrExp] using this
  exact ⟨h5, by
    have : hrUnits.length = 6 := by decide
    omega⟩

theorem hrExp_within_units_witness :
    2 ^ 64 - 1 < 2 ^ 64
    ∧ hrExp (2 ^ 64 - 1) ≤ 5
    ∧ hrExp (2 ^ 64 - 1) < hrUnits.length :=
  ⟨by norm_num, hrExp_within_units (2 ^ 64 - 1) (by norm_num)⟩

/-- C2: the code bug in `parseSize`: the regexp (and the usage text)
accept the unit `P`, but the multiplier `switch` has no case for it, so
`"1P"` parses to 1 byte instead of the documented 1024 ^ 5; the
neighbouring units work (`"1T"` is 1024 ^ 4, `"1.5M"` is 1572864). -/
theorem parseSize_petabyte_no_multiplier :
    parseSize "1P".toList = Except.ok 1
    ∧ parseSize "1T".toList = Except.ok (1024 ^ 4)
    ∧ parseSize "1.5M".toList = Except.ok 1572864
    ∧ (1 : Nat) ≠ 1024 ^ 5 :=
  ⟨by decide, by decide, by decide, by decide⟩

theorem charsLt_asymm : ∀ s u : Str, charsLt s u = true → charsLt u s = false := by
  intro s
  induction s with
  | nil => intro u h; cases u <;> simp [charsLt]
  | cons a as ih =>
    intro u h
    cases u with
    | nil => simp [charsLt] at h
    | cons b bs =>
      simp [charsLt] at h ⊢
      rcases h with h | ⟨hab, h⟩
      · exact ⟨le_of_lt h, fun hba => absurd (hba ▸ h) (lt_irrefl a)⟩
      · subst hab
        exact ⟨le_refl a, fun _ => ih bs h⟩

theorem charsLt_trans :
    ∀ s u v : Str, charsLt s u = true → charsLt u v = true → charsLt s v = true := by
  intro s
  induction s with
  | nil =>
    intro u v h1 h2
    cases u with
    | nil => simp [charsLt] at h1
    | cons b bs =>
      cases v with
      | nil => simp [charsLt] at h2
      | cons c cs => simp [charsLt]
  | cons a as ih =>
    intro u v h1 h2
    cases u with
    | nil => simp [charsLt] at h1
    | cons b bs =>
      cases v with
      | nil => simp [charsLt] at h2
      | cons c cs =>
        simp [charsLt] at h1 h2 ⊢
        rcases h1 with h1 | ⟨hab, h1⟩
        · rcases h2 with h2 | ⟨hbc, h2⟩
          · exact Or.inl (lt_trans h1 h2)
          · exact Or.inl (hbc ▸ h1)
        · subst hab
          rcases h2 with h2 | ⟨hbc, h2⟩
          · exact Or.inl h2
          · exact Or.inr ⟨hbc, ih bs cs h1 h2⟩

theorem charsLt_connex :
    ∀ s u : Str, charsLt s u = false → charsLt u s = false → s = u := by
  intro s
  induction s with
  | nil =>
    intro u h1 _
    cases u with
    | nil => rfl
    | cons b bs => simp [charsLt] at h1
  | cons a as ih =>
    intro u h1 h2
    cases u with
    | nil => simp [charsLt] at h2
    | cons b bs =>
      simp [charsLt] at h1 h2
      have hab : a = b := le_antisymm h2.1 h1.1
      subst hab
      exact congrArg (a :: ·) (ih bs (h1.2 rfl) (h2.2 rfl))

theorem fiLess_asymm (a b : FileInfo) : fiLess a b = true → fiLess b a = false := by
  rcases a with ⟨pa, sa, da⟩
  rcases b with ⟨pb, sb, db⟩
  by_cases hsz : sa = sb
  · subst hsz
    cases da <;> cases db <;> simp [fiLess] <;>
      exact fun h => charsLt_asymm _ _ h
  · have hsz2 : ¬ sb = sa := fun h => hsz h.symm
    cases da <;> cases db <;> simp [fiLess, hsz, hsz2] <;> omega

theorem fiLess_connex (a b : FileInfo) :
    fiLess a b = false → fiLess b a = false → a = b := by
  rcases a with ⟨pa, sa, da⟩
  rcases b with ⟨pb, sb, db⟩
  by_cases hsz : sa = sb
  · subst hsz
    cases da <;> cases db <;> simp [fiLess] <;>
      exact fun h1 h2 => charsLt_connex _ _ h1 h2
  · have hsz2 : ¬ sb = sa := fun h => hsz h.symm
    cases da <;> cases db <;> simp [fiLess, hsz, hsz2] <;> omega

theorem fiLess_trans (a b c : FileInfo) :
    fiLess a b = true → fiLess b c = true → fiLess a c = true := by
  rcases a with ⟨pa, sa, da⟩
  rcases b with ⟨pb, sb, db⟩
  rcases c with ⟨pc, sc, dc⟩
  by_cases hab : sa = sb <;> by_cases hbc : sb = sc <;>
    by_cases hac : sa = sc <;>
    cases da <;> cases db <;> cases dc <;>
    simp [fiLess, hab, hbc, hac] <;>
    first
      | omega
      | (exact fun h1 h2 => charsLt_trans _ _ _ h1 h2)
      | (intro h1 h2; omega)
      | (rw [if_neg (fun h => hbc h.symm)]; intro h1 h2; omega)

instance : IsTotal FileInfo sortLE :=
  ⟨fun a b => by
    rcases hba : fiLess b a with _ | _
    · exact Or.inl hba
    · exact Or.inr (fiLess_asymm b a hba)⟩

instance : IsTrans FileInfo sortLE :=
  ⟨fun a b c h1 h2 => by
    unfold sortLE at h1 h2 ⊢
    rcases hca : fiLess c a with _ | _
    · rfl
    · exfalso
      rcases hab : fiLess a b with _ | _
      · have hba : a = b := fiLess_connex a b hab h1
        subst hba
        rw [hca] at h2
        cases h2
      · have := fiLess_trans c a b hca hab
        rw [this] at h2
        cases h2⟩

/-- C8: the final listing is `sortResults` of the result collection; its
output is a permutation of the input, sorted by the non-strict closure of
the comparator; that comparator relation is total, transitive and
antisymmetric (a total order); and the strict comparator holds exactly
when the first entry is a directory and the second a file, or both are
of the same kind and the first is larger, or both are of the same kind
and size and the first entry's path is lexicographically smaller. -/
theorem sortResults_total_order :
    (∀ l : List FileInfo,
      (sortResults l).Perm l ∧ List.Sorted sortLE (sortResults l))
    ∧ (∀ a b : FileInfo, sortLE a b ∨ sortLE b a)
    ∧ (∀ a b c : FileInfo, sortLE a b → sortLE b c → sortLE a c)
    ∧ (∀ a b : FileInfo, sortLE a b → sortLE b a → a = b)
    ∧ (∀ a b : FileInfo, fiLess a b = true ↔
        ((a.isDir = true ∧ b.isDir = false)
          ∨ (a.isDir = b.isDir ∧ b.size < a.size)
          ∨ (a.isDir = b.isDir ∧ a.size = b.size
              ∧ charsLt a.path b.path = true))) := by
  refine ⟨fun l => ⟨List.perm_insertionSort sortLE l,
      List.sorted_insertionSort sortLE l⟩,
    fun a b => total_of sortLE a b,
    fun a b c h1 h2 => trans_of sortLE h1 h2,
    fun a b h1 h2 => fiLess_connex a b h2 h1,
    fun a b => ?_⟩
  rcases a with ⟨pa, sa, da⟩
  rcases b with ⟨pb, sb, db⟩
  by_cases hsz : sa = sb
  · subst hsz
    cases da <;> cases db <;> simp [fiLess]
  · cases da <;> cases db <;> simp [fiLess, hsz]

theorem sortResults_total_order_witness :
    sortLE ⟨"b".toList, 7, true⟩ ⟨"a".toList, 7, false⟩
    ∧ sortLE ⟨"a".toList, 7, false⟩ ⟨"a/c".toList, 3, false⟩
    ∧ sortLE ⟨"b".toList, 7, true⟩ ⟨"a/c".toList, 3, false⟩
    ∧ sortResults
        [⟨"a/c".toList, 3, false⟩, ⟨"a".toList, 7, false⟩, ⟨"b".toList, 7, true⟩]
      = [⟨"b".toList, 7, true⟩, ⟨"a".toList, 7, false⟩, ⟨"a/c".toList, 3, false⟩] :=
  ⟨by decide, by decide,
    sortResults_total_order.2.2.1 ⟨"b".toList, 7, true⟩ ⟨"a".toList, 7, false⟩
      ⟨"a/c".toList, 3, false⟩ (by decide) (by decide), by decide⟩

theorem walkDirRecursive_dir (p : Str) (t : Nat) (x : List Str) (n : Str)
    (es : List FSNode) :
    walkDirRecursive p t x (.dir n es true) = walkEntries p t x es := by
  simp [walkDirRecursive]

theorem walkEntries_total_eq (p : Str) (t : Nat) (x : List Str)
    (es : List FSNode) :
    (walkEntries p t x es).total = (es.map (entryTotal p t x)).sum := by
  induction es with
  | nil => rfl
  | cons e rest ih =>
    cases e with
    | file fn fs ok =>
      by_cases hm : FSNode.name (.file fn fs ok) ∈ x
      · simp [walkEntries, entryTotal, hm, ih]
      · cases ok <;> simp [walkEntries, entryTotal, hm, ih]
    | dir dn des dok =>
      by_cases hm : FSNode.name (.dir dn des dok) ∈ x
      · simp [walkEntries, entryTotal, hm, ih]
      · simp [walkEntries, entryTotal, hm, ih]

theorem entryTotal_sum_filter (p : Str) (t : Nat) (excl : List Str) :
    ∀ es : List FSNode, filesOk es = true →
      (es.map (entryTotal p t excl)).sum
        = ((es.filter fun e => decide (e.name ∉ excl)).map
            (childContribution p t excl)).sum := by
  intro es
  induction es with
  | nil => intro _; rfl
  | cons e rest ih =>
    intro h
    cases e with
    | file fn fs ok =>
      simp [filesOk] at h
      obtain ⟨hok, hrest⟩ := h
      subst hok
      by_cases hm : FSNode.name (.file fn fs true) ∈ excl
      · simp [entryTotal, childContribution, hm, ih hrest]
      · simp [entryTotal, childContribution, hm, ih hrest]
    | dir dn des dok =>
      simp [filesOk] at h
      by_cases hm : FSNode.name (.dir dn des dok) ∈ excl
      · simp [entryTotal, childContribution, hm, ih h]
      · simp [entryTotal, childContribution, hm, ih h]

/-- C1: for a readable directory whose file children all stat
successfully, the total returned by `walkDirRecursive` equals the sum,
over the immediate children not in the exclusion set, of the file
child's own size or the subdirectory child's recursively computed total;
and the total is invariant under any permutation of the children. -/
theorem walkDir_total_children_sum (p : Str) (t : Nat) (excl : List Str)
    (n : Str) (es : List FSNode) (h : filesOk es = true) :
    (walkDirRecursive p t excl (.dir n es true)).total
      = ((es.filter fun e => decide (e.name ∉ excl)).map
          (childContribution p t excl)).sum
    ∧ ∀ es₂ : List FSNode, es.Perm es₂ →
        (walkDirRecursive p t excl (.dir n es true)).total
          = (walkDirRecursive p t excl (.dir n es₂ true)).total := by
  constructor
  · rw [walkDirRecursive_dir, walkEntries_total_eq]
    exact entryTotal_sum_filter p t excl es h
  · intro es₂ hperm
    rw [walkDirRecursive_dir, walkDirRecursive_dir,
        walkEntries_total_eq, walkEntries_total_eq]
    exact (hperm.map (entryTotal p t excl)).sum_eq

theorem walkDir_total_children_sum_witness :
    filesOk
        [ FSNode.file "file1.txt".toList 5 true,
          FSNode.dir "subdir1".toList [FSNode.file "file2.txt".toList 5 true] true,
          FSNode.dir "subdir2".toList [FSNode.file "file3.txt".toList 1 true] true ]
      = true
    ∧ (walkDirRecursive "root".toList 1 []
        (FSNode.dir "root".toList
          [ FSNode.file "file1.txt".toList 5 true,
            FSNode.dir "subdir1".toList [FSNode.file "file2.txt".toList 5 true] true,
            FSNode.dir "subdir2".toList [FSNode.file "file3.txt".toList 1 true] true ]
          true)).total
      = (([ FSNode.file "file1.txt".toList 5 true,
            FSNode.dir "subdir1".toList [FSNode.file "file2.txt".toList 5 true] true,
            FSNode.dir "subdir2".toList [FSNode.file "file3.txt".toList 1 true] true
          ].filter fun e => decide (e.name ∉ ([] : List Str))).map
          (childContribution "root".toList 1 [])).sum :=
  ⟨by decide, (walkDir_total_children_sum _ _ _ _ _ (by decide)).1⟩

mutual
theorem walkDir_prune (p : Str) (t : Nat) (excl : List Str) :
    ∀ node : FSNode,
      walkDirRecursive p t excl node = walkDirRecursive p t [] (pruneExcluded excl node)
  | .file _ _ _ => rfl
  | .dir n es ok => by
    cases ok with
    | false => rfl
    | true =>
      simp only [walkDirRecursive, pruneExcluded, if_pos]
      exact walkEntries_prune p t excl es

theorem walkEntries_prune (p : Str) (t : Nat) (excl : List Str) :
    ∀ es : List FSNode,
      walkEntries p t excl es = walkEntries p t [] (pruneList excl es)
  | [] => rfl
  | e :: rest => by
    have ihr := walkEntries_prune p t excl rest
    cases e with
    | file fn fs ok =>
      by_cases hm : FSNode.name (.file fn fs ok) ∈ excl
      · simp [walkEntries, pruneList, hm, ihr]
      · simp [walkEntries, pruneList, pruneExcluded, hm, ihr]
    | dir dn des dok =>
      have ihd := walkDir_prune (filepathJoin p dn) t excl (.dir dn des dok)
      by_cases hm : FSNode.name (.dir dn des dok) ∈ excl
      · simp [walkEntries, pruneList, hm, ihr]
      · simp [walkEntries, pruneList, pruneExcluded, hm, ihr, ihd]
end

/-- C5: walking a tree with an exclusion set gives exactly the walk of
the pruned tree (every node whose bare name is in the set removed, at
every depth, together with its whole subtree) with the empty exclusion
set: excluded subtrees produce no entries, no diagnostics, and
contribute zero to every ancestor total, regardless of their own size. -/
theorem walk_exclusion_prune (p : Str) (t : Nat) (excl : List Str) :
    (∀ node : FSNode,
      walkDirRecursive p t excl node
        = walkDirRecursive p t [] (pruneExcluded excl node))
    ∧ ∀ es : List FSNode,
        walkEntries p t excl es = walkEntries p t [] (pruneList excl es) :=
  ⟨walkDir_prune p t excl, walkEntries_prune p t excl⟩

theorem walkEntries_spec (t : Nat) (excl : List Str) :
    ∀ (es : List FSNode) (p : Str), intactList es = true →
      (walkEntries p t excl es).total = specSizeList excl es
      ∧ (walkEntries p t excl es).results = specEntriesList p t excl es
  | [], _, _ => ⟨rfl, rfl⟩
  | e :: rest, p, h => by
    cases e with
    | file fn fs ok =>
      have hparts : intact (FSNode.file fn fs ok) = true ∧ intactList rest = true := by
        simpa [intactList, Bool.and_eq_true] using h
      have hok : ok = true := by simpa [intact] using hparts.1
      subst hok
      have ihr := walkEntries_spec t excl rest p hparts.2
      by_cases hm : FSNode.name (.file fn fs true) ∈ excl
      · simp [walkEntries, specSizeList, specEntriesList, specSize, hm, ihr.1, ihr.2]
      · simp [walkEntries, specSizeList, specEntriesList, specSize, hm, ihr.1, ihr.2]
    | dir dn des dok =>
      have hparts : intact (FSNode.dir dn des dok) = true ∧ intactList rest = true := by
        simpa [intactList, Bool.and_eq_true] using h
      have hsub : dok = true ∧ intactList des = true := by
        simpa [intact, Bool.and_eq_true] using hparts.1
      obtain ⟨hdok, hdes⟩ := hsub
      subst hdok
      have ihr := walkEntries_spec t excl rest p hparts.2
      have ihd := walkEntries_spec t excl des (filepathJoin p dn) hdes
      by_cases hm : FSNode.name (.dir dn des true) ∈ excl
      · simp [walkEntries, specSizeList, specEntriesList, hm, ihr.1, ihr.2]
      · simp [walkEntries, walkDirRecursive, specSizeList, specEntriesList,
          specSize, specEntries, hm, ihr.1, ihr.2, ihd.1, ihd.2]
termination_by es => sizeOf es

/-- C6: first, for every intact tree the entries recorded by the walk
are exactly the spec-side qualifying entries — every non-excluded node
appears with its full recursive size precisely when that size meets the
(inclusive) threshold; second, a successful run on an intact tree with
an empty initial collection displays exactly those entries plus the root
directory's own entry exactly when the root's total meets the same
threshold, the root being judged only after the traversal. -/
theorem walk_records_iff_threshold :
    (∀ (p : Str) (t : Nat) (excl : List Str) (node : FSNode),
        intact node = true →
        (walkDirRecursive p t excl node).results = specEntries p t excl node)
    ∧ (∀ (eD dirArg sizeArg : Str) (lookup : Str → Option FSNode)
         (t : Nat) (n : Str) (es : List FSNode),
        parseSize sizeArg = Except.ok t →
        filepathBase (filepathClean dirArg) ∉ buildExcludeSet eD →
        lookup (filepathClean dirArg) = some (.dir n es true) →
        intactList es = true →
        run eD [dirArg, sizeArg] lookup []
          = (RunOutcome.success
              (sortResults
                (specEntriesList (filepathClean dirArg) t (buildExcludeSet eD) es
                  ++ (if specSizeList (buildExcludeSet eD) es ≥ t then
                        [⟨filepathClean dirArg,
                          specSizeList (buildExcludeSet eD) es, true⟩]
                      else [])))
              (specSizeList (buildExcludeSet eD) es),
             sortResults
                (specEntriesList (filepathClean dirArg) t (buildExcludeSet eD) es
                  ++ (if specSizeList (buildExcludeSet eD) es ≥ t then
                        [⟨filepathClean dirArg,
                          specSizeList (buildExcludeSet eD) es, true⟩]
                      else [])))) := by
  constructor
  · intro p t excl node hint
    cases node with
    | file fn fs ok => simp [walkDirRecursive, specEntries]
    | dir n es ok =>
      have hsub : ok = true ∧ intactList es = true := by
        simpa [intact, Bool.and_eq_true] using hint
      obtain ⟨hok, hes⟩ := hsub
      subst hok
      rw [walkDirRecursive_dir]
      rw [(walkEntries_spec t excl es p hes).2]
      simp [specEntries]
  · intro eD dirArg sizeArg lookup t n es hp hx hl hes
    have hw := walkEntries_spec t (buildExcludeSet eD) es (filepathClean dirArg) hes
    simp only [run, hp, hl, if_neg hx, walkDirRecursive_dir, hw.1, hw.2,
      List.nil_append]
    split <;> simp

/-- C7 counterexample: with threshold 0, a directory whose listing fails
returns total 0, and its parent still records an entry for it (0 meets
the threshold), contradicting the claim that no entry is recorded for a
failing node; the diagnostic for the node is emitted. -/
theorem walk_ioerror_counterexample :
    (walkDirRecursive "root".toList 0 []
        (.dir "root".toList [.dir "bad".toList [] false] true)).results
      = [⟨"root/bad".toList, 0, true⟩]
    ∧ (walkDirRecursive "root".toList 0 []
        (.dir "root".toList [.dir "bad".toList [] false] true)).errs
      = [readDirErr "root/bad".toList] :=
  ⟨by decide, by decide⟩

/-- C7 amended: a per-node I/O failure is isolated: a diagnostic is
written, the node contributes zero to its parent's total, and the rest
of the traversal is unaffected; a stat-failed file is never recorded,
while an unreadable directory is recorded (with size 0) exactly when the
threshold is zero. -/
theorem walk_ioerror_isolated (p : Str) (t : Nat) (excl : List Str)
    (rest : List FSNode) :
    (∀ (n : Str) (es : List FSNode), n ∉ excl →
        walkEntries p t excl (FSNode.dir n es false :: rest)
          = { total := (walkEntries p t excl rest).total,
              results := (if t = 0 then [⟨filepathJoin p n, 0, true⟩] else [])
                ++ (walkEntries p t excl rest).results,
              errs := readDirErr (filepathJoin p n)
                :: (walkEntries p t excl rest).errs })
    ∧ (∀ (n : Str) (s : Nat), n ∉ excl →
        walkEntries p t excl (FSNode.file n s false :: rest)
          = { total := (walkEntries p t excl rest).total,
              results := (walkEntries p t excl rest).results,
              errs := statErr (filepathJoin p n)
                :: (walkEntries p t excl rest).errs }) := by
  constructor
  · intro n es hm
    simp [walkEntries, walkDirRecursive, FSNode.name, hm, Nat.le_zero]
  · intro n s hm
    simp [walkEntries, FSNode.name, hm]

theorem walk_ioerror_isolated_witness :
    ("bad".toList ∉ ([] : List Str))
    ∧ walkEntries "root".toList 7 []
        [FSNode.dir "bad".toList [] false, FSNode.file "a.txt".toList 9 true]
      = { total :=
            (walkEntries "root".toList 7 []
              [FSNode.file "a.txt".toList 9 true]).total,
          results := (if (7 : Nat) = 0 then
              [⟨filepathJoin "root".toList "bad".toList, 0, true⟩] else [])
            ++ (walkEntries "root".toList 7 []
                  [FSNode.file "a.txt".toList 9 true]).results,
          errs := readDirErr (filepathJoin "root".toList "bad".toList)
            :: (walkEntries "root".toList 7 []
                  [FSNode.file "a.txt".toList 9 true]).errs } :=
  ⟨by decide,
    (walk_ioerror_isolated "root".toList 7 []
        [FSNode.file "a.txt".toList 9 true]).1 "bad".toList [] (by decide)⟩

theorem walk_records_iff_threshold_witness :
    run [] ["d".toList, "1".toList]
        (fun _ => some (FSNode.dir "d".toList
          [FSNode.file "a.txt".toList 5 true] true)) []
      = (RunOutcome.success
          [⟨"d".toList, 5, true⟩, ⟨"d/a.txt".toList, 5, false⟩] 5,
         [⟨"d".toList, 5, true⟩, ⟨"d/a.txt".toList, 5, false⟩]) := by
  have h := walk_records_iff_threshold.2 [] "d".toList "1".toList
    (fun _ => some (FSNode.dir "d".toList
      [FSNode.file "a.txt".toList 5 true] true))
    1 "d".toList [FSNode.file "a.txt".toList 5 true]
    (by decide) (by decide) rfl (by decide)
  rw [h]
  decide

/-- C4 counterexample: the top-level exclusion check runs before the
size argument is parsed, so an invocation whose min_size is unparsable
but whose top-level directory's bare name is in the exclusion set takes
the zero-exit informational path, not the non-zero error exit the claim
requires for every invalid min_size. -/
theorem run_excluded_top_bad_size_zero_exit :
    (parseSize "garbage".toList).isOk = false
    ∧ run "proc,dev,sys".toList ["proc".toList, "garbage".toList]
        (fun _ => none) []
      = (RunOutcome.excludedTop "proc".toList, [])
    ∧ RunOutcome.isError (RunOutcome.excludedTop "proc".toList) = false :=
  ⟨by decide, by decide, by decide⟩

/-- C4 amended: an invocation with two positional arguments whose
min_size fails to parse exits non-zero with an error message and without
any traversal — provided the top-level directory's bare name is not in
the exclusion set; when it is, the zero-exit informational path fires
first and the size argument is never parsed. -/
theorem run_bad_size_fails_unless_top_excluded
    (eD dirArg sizeArg : Str) (lookup : Str → Option FSNode)
    (r0 : List FileInfo) (msg : Str)
    (hx : filepathBase (filepathClean dirArg) ∉ buildExcludeSet eD)
    (hp : parseSize sizeArg = Except.error msg) :
    run eD [dirArg, sizeArg] lookup r0 = (RunOutcome.errSize msg, r0)
    ∧ RunOutcome.isError (RunOutcome.errSize msg) = true := by
  constructor
  · simp only [run, if_neg hx, hp]
  · rfl

theorem run_bad_size_fails_witness :
    (filepathBase (filepathClean "home".toList)
        ∉ buildExcludeSet "proc,dev,sys".toList)
    ∧ parseSize "xyz".toList
        = Except.error ("invalid size format: ".toList ++ "xyz".toList)
    ∧ run "proc,dev,sys".toList ["home".toList, "xyz".toList]
        (fun _ => none) []
      = (RunOutcome.errSize ("invalid size format: ".toList ++ "xyz".toList), [])
    ∧ RunOutcome.isError
        (RunOutcome.errSize ("invalid size format: ".toList ++ "xyz".toList))
      = true :=
  ⟨by decide, by decide,
    run_bad_size_fails_unless_top_excluded "proc,dev,sys".toList "home".toList
      "xyz".toList (fun _ => none) []
      ("invalid size format: ".toList ++ "xyz".toList)
      (by decide) (by decide)⟩

/-- C3 counterexample: `run` never resets the global result collection,
so running the identical invocation twice in the same process makes the
second displayed listing hold every entry of the first twice — the two
result multisets are not equal. -/
theorem run_twice_not_idempotent :
    RunOutcome.displayed
        (run [] ["d".toList, "1".toList]
          (fun _ => some (FSNode.dir "d".toList
            [FSNode.file "a.txt".toList 5 true] true)) []).1
      = [⟨"d".toList, 5, true⟩, ⟨"d/a.txt".toList, 5, false⟩]
    ∧ RunOutcome.displayed
        (run [] ["d".toList, "1".toList]
          (fun _ => some (FSNode.dir "d".toList
            [FSNode.file "a.txt".toList 5 true] true))
          (run [] ["d".toList, "1".toList]
            (fun _ => some (FSNode.dir "d".toList
              [FSNode.file "a.txt".toList 5 true] true)) []).2).1
      = [⟨"d".toList, 5, true⟩, ⟨"d".toList, 5, true⟩,
         ⟨"d/a.txt".toList, 5, false⟩, ⟨"d/a.txt".toList, 5, false⟩]
    ∧ ¬ ([⟨"d".toList, 5, true⟩, ⟨"d".toList, 5, true⟩,
          ⟨"d/a.txt".toList, 5, false⟩,
          ⟨"d/a.txt".toList, 5, false⟩] : List FileInfo).Perm
          [⟨"d".toList, 5, true⟩, ⟨"d/a.txt".toList, 5, false⟩] :=
  ⟨by decide, by decide, by decide⟩

/-- C3 amended: `run` never resets the global collection, but its branch
structure and the batch of entries it appends do not depend on the
collection's prior contents; re-running the same successful invocation
therefore returns the identical total, while the second displayed
listing is the persisted first listing plus an identical batch — two
copies of the first run's listing as a multiset, not an equal one. -/
theorem run_no_reset (eD : Str) (args : List Str)
    (lookup : Str → Option FSNode) (d1 : List FileInfo) (t1 : Nat)
    (h : (run eD args lookup []).1 = RunOutcome.success d1 t1) :
    (run eD args lookup []).2 = d1
    ∧ ∃ d2 : List FileInfo,
        run eD args lookup d1 = (RunOutcome.success d2 t1, d2)
        ∧ d2.Perm (d1 ++ d1) := by
  rcases args with _ | ⟨a, _ | ⟨b, _ | ⟨c, rest⟩⟩⟩
  · simp [run] at h
  · simp [run] at h
  · by_cases hx : filepathBase (filepathClean a) ∈ buildExcludeSet eD
    · simp [run, hx] at h
    · rcases hp : parseSize b with msg | thr
      · simp [run, hx, hp] at h
      · rcases hl : lookup (filepathClean a) with _ | node
        · simp [run, hx, hp, hl] at h
        · cases node with
          | file fn fs fok => simp [run, hx, hp, hl] at h
          | dir dn des dok =>
            by_cases hth :
                (walkDirRecursive (filepathClean a) thr (buildExcludeSet eD)
                  (FSNode.dir dn des dok)).total ≥ thr
            · simp only [run, if_neg hx, hp, hl, List.nil_append,
                if_pos hth] at h ⊢
              simp only [RunOutcome.success.injEq] at h
              obtain ⟨hd, ht⟩ := h
              refine ⟨hd, ?_⟩
              refine ⟨sortResults (d1 ++
                ((walkDirRecursive (filepathClean a) thr (buildExcludeSet eD)
                    (FSNode.dir dn des dok)).results
                  ++ [⟨filepathClean a,
                      (walkDirRecursive (filepathClean a) thr
                        (buildExcludeSet eD)
                        (FSNode.dir dn des dok)).total, true⟩])), ?_, ?_⟩
              · rw [← ht, List.append_assoc]
              · have hpb := List.perm_insertionSort sortLE
                  ((walkDirRecursive (filepathClean a) thr (buildExcludeSet eD)
                      (FSNode.dir dn des dok)).results
                    ++ [⟨filepathClean a,
                        (walkDirRecursive (filepathClean a) thr
                          (buildExcludeSet eD)
                          (FSNode.dir dn des dok)).total, true⟩])
                rw [← hd]
                exact (List.perm_insertionSort sortLE _).trans
                  (List.Perm.append_left _ hpb.symm)
            · simp only [run, if_neg hx, hp, hl, List.nil_append,
                if_neg hth] at h ⊢
              simp only [RunOutcome.success.injEq] at h
              obtain ⟨hd, ht⟩ := h
              refine ⟨hd, ?_⟩
              refine ⟨sortResults (d1 ++
                (walkDirRecursive (filepathClean a) thr (buildExcludeSet eD)
                    (FSNode.dir dn des dok)).results), ?_, ?_⟩
              · rw [← ht]
              · have hpb := List.perm_insertionSort sortLE
                  (walkDirRecursive (filepathClean a) thr (buildExcludeSet eD)
                      (FSNode.dir dn des dok)).results
                rw [← hd]
                exact (List.perm_insertionSort sortLE _).trans
                  (List.Perm.append_left _ hpb.symm)
  · simp [run] at h

theorem run_no_reset_witness :
    (run [] ["d".toList, "1".toList]
        (fun _ => some (FSNode.dir "d".toList
          [FSNode.file "a.txt".toList 5 true] true)) []).2
      = [⟨"d".toList, 5, true⟩, ⟨"d/a.txt".toList, 5, false⟩]
    ∧ ∃ d2 : List FileInfo,
        run [] ["d".toList, "1".toList]
          (fun _ => some (FSNode.dir "d".toList
            [FSNode.file "a.txt".toList 5 true] true))
          [⟨"d".toList, 5, true⟩, ⟨"d/a.txt".toList, 5, false⟩]
        = (RunOutcome.success d2 5, d2)
        ∧ d2.Perm ([⟨"d".toList, 5, true⟩, ⟨"d/a.txt".toList, 5, false⟩]
            ++ [⟨"d".toList, 5, true⟩, ⟨"d/a.txt".toList, 5, false⟩]) :=
  run_no_reset [] ["d".toList, "1".toList]
    (fun _ => some (FSNode.dir "d".toList
      [FSNode.file "a.txt".toList 5 true] true))
    [⟨"d".toList, 5, true⟩, ⟨"d/a.txt".toList, 5, false⟩] 5 (by decide)

theorem dropWhile_head_not (p : Char → Bool) :
    ∀ (l : List Char) (d : Char) (ds : List Char),
      l.dropWhile p = d :: ds → p d = false := by
  intro l
  induction l with
  | nil => intro d ds h; cases h
  | cons a as ih =>
    intro d ds h
    rw [List.dropWhile_cons] at h
    split at h
    · exact ih d ds h
    · next hpa =>
      injection h with h1 _
      subst h1
      simpa using hpa

theorem parseDecimal_some_shape (cs : Str) (num den : Nat)
    (h : parseDecimal cs = some (num, den)) :
    cs.any Char.isDigit = true ∧ cs.count '.' ≤ 1 := by
  unfold parseDecimal at h
  split at h
  · cases h
  · split at h
    · cases h
    · dsimp only [] at h
      split at h
      · cases h
      · next hall hcount hne =>
        simp only [Bool.not_eq_true', Bool.not_eq_false] at hall
        rw [List.all_eq_true] at hall
        have hcount2 : cs.count '.' ≤ 1 := by omega
        refine ⟨?_, hcount2⟩
        simp only [Bool.and_eq_true, List.isEmpty_eq_true, not_and_or] at hne
        rw [List.any_eq_true]
        rcases hne with hne | hne
        · obtain ⟨c, cs', hc⟩ := List.exists_cons_of_ne_nil hne
          have hmem : c ∈ cs.takeWhile (fun x => decide (x ≠ '.')) := by
            rw [hc]; exact List.mem_cons_self c cs'
          have hpc := List.mem_takeWhile_imp hmem
          have hmem2 : c ∈ cs := (List.takeWhile_sublist _).subset hmem
          have := hall c hmem2
          simp only [Bool.or_eq_true, decide_eq_true_eq] at this hpc
          exact ⟨c, hmem2, by tauto⟩
        · rcases hdw : cs.dropWhile (fun x => decide (x ≠ '.')) with _ | ⟨d, ds⟩
          · rw [hdw] at hne; simp at hne
          · have hd : d = '.' := by
              have := dropWhile_head_not (fun x => decide (x ≠ '.')) cs d ds hdw
              simpa using this
            subst hd
            rw [hdw] at hne
            simp only [List.drop_one, List.tail_cons] at hne
            obtain ⟨c, cs', hc⟩ := List.exists_cons_of_ne_nil hne
            have hcds : ('.' :: ds).Sublist cs := by
              rw [← hdw]; exact List.dropWhile_sublist _
            have hcount3 : List.count '.' ('.' :: ds) ≤ List.count '.' cs :=
              hcds.count_le '.'
            rw [List.count_cons_self] at hcount3
            have hnotdot : c ≠ '.' := by
              intro hcd
              subst hcd
              have : 1 ≤ List.count '.' ds := by
                rw [hc, List.count_cons_self]  -- hmm count '.' (c::cs') with c = '.'
                omega
              omega
            have hmemds : c ∈ ds := by rw [hc]; exact List.mem_cons_self c cs'
            have hmem2 : c ∈ cs := hcds.subset (List.mem_cons_of_mem _ hmemds)
            have := hall c hmem2
            simp only [Bool.or_eq_true, decide_eq_true_eq] at this
            exact ⟨c, hmem2, by tauto⟩

/-- C9: `parseSize` returns a value only for inputs whose trimmed form is
a non-negative decimal number (at least one digit, at most one decimal
point — so a leading minus never parses) followed by optional spaces and
an optional valid unit; every other input fails with an error, in
particular the empty string, "abc", "100XYZ" and "-50M". -/
theorem parseSize_rejects_invalid :
    (∀ (s : Str) (v : Nat), parseSize s = Except.ok v → isValidSizeStr s = true)
    ∧ (parseSize "".toList).isOk = false
    ∧ (parseSize "abc".toList).isOk = false
    ∧ (parseSize "100XYZ".toList).isOk = false
    ∧ (parseSize "-50M".toList).isOk = false := by
  refine ⟨?_, by decide, by decide, by decide, by decide⟩
  intro s v h
  unfold parseSize at h
  dsimp only [] at h
  unfold isValidSizeStr
  dsimp only []
  split at h
  · cases h
  · next hcond =>
    split at h
    · cases h
    · next num den heq =>
      have hshape := parseDecimal_some_shape _ num den heq
      simp only [Bool.or_eq_true, not_or, Bool.not_eq_true] at hcond
      rw [Bool.and_eq_true, Bool.and_eq_true]
      refine ⟨⟨hshape.1, by simpa using hshape.2⟩, ?_⟩
      have := hcond.2
      simpa using this

theorem parseSize_rejects_invalid_witness :
    parseSize "10K".toList = Except.ok 10240
    ∧ isValidSizeStr "10K".toList = true :=
  ⟨by decide, parseSize_rejects_invalid.1 "10K".toList 10240 (by decide)⟩
